import Mathlib

/-!
# Verification of the realtime chat server core

Shallow embedding of the message store, presence registry and socket event
handlers of the chat server (`server.js`, `models/Message.js`, `models/User.js`).

JavaScript values are modelled as follows: strings are `String`, a possibly
`undefined`/`null` string is `Option String`, and the JS falsiness of the
empty string is made explicit wherever the source tests a string with `!x`
or coalesces with `x || d`.  Timestamps (`createdAt`) are `Nat`.  The
in-memory fallback stores are Lean lists; the external MongoDB collection is
likewise modelled as a list of documents, with `find(q).sort({createdAt:1}).limit(500)`
given its documented semantics (filter, stable ascending sort, first 500).
JS objects used as string-keyed dictionaries (`inMemoryUsers`, `socketUsers`,
`userSockets`, avatar maps) are association lists with overwrite-on-assign.
-/

set_option autoImplicit false

namespace Chat

/-- `ReactionSchema`: `{ emoji, by }` (models/Message.js). -/
structure Reaction where
  emoji : String
  by_ : String
deriving DecidableEq, Repr

/-- Attachment metadata produced by the upload endpoint:
`{ url, name, size, type }`. -/
structure Attachment where
  url : String
  name : String
  size : Nat
  mimeType : String
deriving DecidableEq, Repr

/-- `MessageSchema` together with the fields the server adds on save
(`_id`, `createdAt`).  Called `Msg` to leave `Message` for namespacing. -/
structure Msg where
  mid : String
  from_ : String
  to_ : String
  text : String
  attachment : Option Attachment
  delivered : Bool
  seen : Bool
  reactions : List Reaction
  createdAt : Nat
deriving DecidableEq, Repr

/-- `UserSchema`: `{ username, avatar }` (models/User.js); `avatar` defaults
to `null`. -/
structure UserRec where
  username : String
  avatar : Option String
deriving DecidableEq, Repr

/-- A message enriched with the sender's avatar, as returned by
`queryMessages` and broadcast in `message` payloads. -/
structure EnrichedMsg where
  msg : Msg
  avatar : Option String
deriving DecidableEq, Repr

/-! ## JS-style dictionaries and helpers -/

/-- JS object assignment `m[k] = v`: overwrite the entry if the key is
present, otherwise append it. -/
def setVal {α : Type} (m : List (String × α)) (k : String) (v : α) :
    List (String × α) :=
  if m.any (fun p => p.1 = k) then
    m.map (fun p => if p.1 = k then (k, v) else p)
  else m ++ [(k, v)]

/-- JS object read `m[k]`: the value of the first entry with key `k` (the
overwriting assignment keeps at most one entry per key). -/
def getVal {α : Type} (m : List (String × α)) (k : String) : Option α :=
  match m with
  | [] => none
  | p :: ps => if p.1 = k then some p.2 else getVal ps k

/-- JS `delete m[k]`. -/
def delVal {α : Type} (m : List (String × α)) (k : String) :
    List (String × α) :=
  m.filter (fun p => p.1 ≠ k)

/-- JS string coalescing `s || d` for a possibly-absent string: the empty
string is falsy. -/
def jsOrStr (s : Option String) (d : String) : String :=
  match s with
  | some v => if v = "" then d else v
  | none => d

/-- JS `s || ''`. -/
def jsStr (s : Option String) : String := jsOrStr s ""

/-- JS truthiness of a possibly-absent string. -/
def jsTruthy (s : Option String) : Bool :=
  match s with
  | some v => v ≠ ""
  | none => false

/-- The enrichment read `avatarMap[m.from] || null`: an absent entry or a
stored falsy (null / empty) avatar degrades to `null`. -/
def jsAvatarOrNull (v : Option (Option String)) : Option String :=
  match v with
  | some (some s) => if s = "" then none else some s
  | _ => none

/-- `Array.from(new Set(l))` with a `seen` accumulator: keep the first
occurrence of each element, in order. -/
def dedupGo (seen : List String) : List String → List String
  | [] => []
  | x :: xs => if x ∈ seen then dedupGo seen xs else x :: dedupGo (x :: seen) xs

/-- `Array.from(new Set(l))`. -/
def dedupFirst (l : List String) : List String := dedupGo [] l

/-- Stable insertion of a message into a list sorted ascending by
`createdAt`; an element with an equal timestamp stays before the inserted
one, as in a stable sort. -/
def insertByTime (m : Msg) : List Msg → List Msg
  | [] => [m]
  | y :: ys => if y.createdAt < m.createdAt then y :: insertByTime m ys
               else m :: y :: ys

/-- Stable ascending sort by `createdAt`, modelling both
`Array.prototype.sort((a,b) => new Date(a.createdAt) - new Date(b.createdAt))`
and MongoDB's `sort({ createdAt: 1 })`. -/
def sortByTime : List Msg → List Msg
  | [] => []
  | x :: xs => insertByTime x (sortByTime xs)

/-- JS `l.slice(-n)`: the last `n` elements (all of them when `l` is
shorter). -/
def lastN {α : Type} (n : Nat) (l : List α) : List α :=
  l.drop (l.length - n)

/-- Mutation of the first stored message whose `_id` matches, as done by
`inMemoryMessages.find(...)` followed by in-place assignment, and by
Mongo's by-id update of the unique matching document. -/
def updateFirstMsg (f : Msg → Msg) (mid : String) : List Msg → List Msg
  | [] => []
  | m :: ms => if m.mid = mid then f m :: ms else m :: updateFirstMsg f mid ms

/-! ## Store backend -/

/-- The routing predicate of `queryMessages` (server.js:114-115 for the
durable query object, 118-121 for the in-memory filter — the two spell the
same condition).  `peer` is `none` when `requestHistory` carried no `with`
field; the empty string is falsy like an absent peer. -/
def routePred (usernameLocal : String) (peer : Option String) (m : Msg) : Bool :=
  match peer with
  | none => m.to_ == "all" || m.to_ == usernameLocal || m.from_ == usernameLocal
  | some p =>
      if p = "" ∨ p = "all" then
        m.to_ == "all" || m.to_ == usernameLocal || m.from_ == usernameLocal
      else
        m.to_ == "all" || (m.from_ == usernameLocal && m.to_ == p) ||
          (m.from_ == p && m.to_ == usernameLocal)

/-- In-memory branch of `queryMessages` before avatar enrichment:
`inMemoryMessages.filter(...).sort(byCreatedAt).slice(-500)`. -/
def queryMessagesMemRaw (store : List Msg) (usernameLocal : String)
    (peer : Option String) : List Msg :=
  lastN 500 (sortByTime (store.filter (routePred usernameLocal peer)))

/-- Durable branch of `queryMessages` before avatar enrichment:
`Message.find(query).sort({ createdAt: 1 }).limit(500)` — ascending sort,
then the first 500 documents. -/
def queryMessagesDbRaw (dbStore : List Msg) (usernameLocal : String)
    (peer : Option String) : List Msg :=
  (sortByTime (dbStore.filter (routePred usernameLocal peer))).take 500

/-- In-memory branch of `findUsersByNames`: for each requested name with an
entry in `inMemoryUsers`, record its avatar. -/
def findUsersByNamesMem (users : List UserRec) (names : List String) :
    List (String × Option String) :=
  names.foldl (fun map n =>
    match users.find? (fun u => u.username == n) with
    | some u => setVal map n u.avatar
    | none => map) []

/-- Durable branch of `findUsersByNames`.  `rowsResult` is the outcome of the
external `User.find({ username: { $in: names } })` call: the matching rows,
or an error when the store read fails.  An empty name list short-circuits to
an empty map without touching the store. -/
def findUsersByNamesDb (rowsResult : Except Unit (List UserRec))
    (names : List String) : Except Unit (List (String × Option String)) :=
  if names.isEmpty then .ok []
  else
    match rowsResult with
    | .error e => .error e
    | .ok rows => .ok (rows.foldl (fun map r => setVal map r.username r.avatar) [])

/-- The distinct senders of a message list:
`Array.from(new Set(msgs.map(m => m.from).filter(Boolean)))`. -/
def sendersOf (msgs : List Msg) : List String :=
  dedupFirst ((msgs.map (fun m => m.from_)).filter (fun s => s != ""))

/-- Avatar enrichment: `msgs.map(m => ({...m, avatar: avatarMap[m.from] || null}))`. -/
def enrichWithMap (avatarMap : List (String × Option String))
    (msgs : List Msg) : List EnrichedMsg :=
  msgs.map (fun m => ⟨m, jsAvatarOrNull (getVal avatarMap m.from_)⟩)

/-- `queryMessages` with the in-memory backend active. -/
def queryMessagesMem (users : List UserRec) (store : List Msg)
    (usernameLocal : String) (peer : Option String) : List EnrichedMsg :=
  let msgs := queryMessagesMemRaw store usernameLocal peer
  enrichWithMap (findUsersByNamesMem users (sendersOf msgs)) msgs

/-- `queryMessages` with the durable backend active.  The avatar lookup is
awaited with no try/catch inside `queryMessages`, so a failing `User.find`
fails the whole query. -/
def queryMessagesDb (dbStore : List Msg) (rowsResult : Except Unit (List UserRec))
    (usernameLocal : String) (peer : Option String) :
    Except Unit (List EnrichedMsg) :=
  let msgs := queryMessagesDbRaw dbStore usernameLocal peer
  match findUsersByNamesDb rowsResult (sendersOf msgs) with
  | .error e => .error e
  | .ok avatarMap => .ok (enrichWithMap avatarMap msgs)

/-- In-memory branch of `upsertUserAvatar`: `inMemoryUsers[username] =
{ username, avatar: avatarUrl }`; a falsy username returns early. -/
def upsertUserAvatarMem (users : List UserRec) (username url : String) :
    List UserRec :=
  if username = "" then users
  else if users.any (fun u => u.username == username) then
    users.map (fun u => if u.username == username then ⟨username, some url⟩ else u)
  else users ++ [⟨username, some url⟩]

/-- A sequence of `upsertUserAvatar` calls applied in order. -/
def applyAvatarCalls (users : List UserRec) (calls : List (String × String)) :
    List UserRec :=
  calls.foldl (fun us c => upsertUserAvatarMem us c.1 c.2) users

/-- The `delivered` / `seen` patches passed to `updateMessageStatus`. -/
inductive StatusField where
  | delivered
  | seen
deriving DecidableEq, Repr

/-- `Object.assign(msg, patch)` for a status patch. -/
def applyStatusPatch : StatusField → Msg → Msg
  | .delivered, m => { m with delivered := true }
  | .seen, m => { m with seen := true }

/-- In-memory branch of `updateMessageStatus`: find the stored message by id
and assign the patch in place; unknown ids are ignored. -/
def updateMessageStatusMem (store : List Msg) (messageId : String)
    (f : StatusField) : List Msg :=
  updateFirstMsg (applyStatusPatch f) messageId store

/-- Durable branch of `updateMessageStatus`:
`Message.findByIdAndUpdate(messageId, patch)` on the unique document with
that id (no-op when absent). -/
def updateMessageStatusDb (dbStore : List Msg) (messageId : String)
    (f : StatusField) : List Msg :=
  updateFirstMsg (applyStatusPatch f) messageId dbStore

/-! ## Socket event handlers -/

/-- Outbound socket events relevant to the verified handlers.  A `message`
with target `none` is an `io.emit` broadcast; with `some sid` it is an
`io.to(sid).emit` / `socket.emit` unicast. -/
inductive OutEvent where
  | message (target : Option String) (payload : EnrichedMsg)
  | loadMessages (msgs : List EnrichedMsg)
  | reactionUpdate (messageId : String) (reactions : List Reaction)
deriving DecidableEq, Repr

/-- Payload of a `chatMessage` event; `to`, `text`, `attachment` may be
absent. -/
structure ChatData where
  from_ : String
  to_ : Option String
  text : Option String
  attachment : Option Attachment
deriving DecidableEq, Repr

/-- The `chatMessage` handler with the in-memory backend active: validation
(`!data.from || (!data.text && !data.attachment)` rejects), document
construction, `saveMessage` (append with fresh id `fresh` and timestamp `t`),
sender-avatar lookup, then fan-out (broadcast for `to == "all"`, otherwise
sender plus the resolved target socket). -/
def chatMessageMem (users : List UserRec) (userSockets : List (String × String))
    (senderSocket : String) (store : List Msg) (t : Nat) (fresh : String)
    (d : ChatData) : List Msg × List OutEvent :=
  if d.from_ = "" ∨ (jsTruthy d.text = false ∧ d.attachment = none) then
    (store, [])
  else
    let saved : Msg :=
      { mid := fresh, from_ := d.from_, to_ := jsOrStr d.to_ "all",
        text := jsStr d.text, attachment := d.attachment,
        delivered := false, seen := false, reactions := [], createdAt := t }
    let store' := store ++ [saved]
    let avatarMap := findUsersByNamesMem users [saved.from_]
    let payload : EnrichedMsg := ⟨saved, jsAvatarOrNull (getVal avatarMap saved.from_)⟩
    if saved.to_ = "all" then (store', [.message none payload])
    else
      (store',
        .message (some senderSocket) payload ::
          (match getVal userSockets saved.to_ with
           | some tgt => [.message (some tgt) payload]
           | none => []))

/-- The reaction-match test of the `react` handler's `findIndex`. -/
def reactionMatches (e b : String) (r : Reaction) : Bool :=
  r.emoji == e && r.by_ == b

/-- `reactions.splice(idx, 1)` at the index found by `findIndex`: remove the
first matching reaction. -/
def removeFirstReaction (e b : String) : List Reaction → List Reaction
  | [] => []
  | r :: rs => if reactionMatches e b r then rs else r :: removeFirstReaction e b rs

/-- The toggle of the `react` handler: remove the first `(emoji, by)` match
if one exists, otherwise push `{ emoji, by }`. -/
def toggleReaction (rs : List Reaction) (e b : String) : List Reaction :=
  if rs.any (reactionMatches e b) then removeFirstReaction e b rs
  else rs ++ [⟨e, b⟩]

/-- `socket.username || 'unknown'`. -/
def socketBy (username : Option String) : String :=
  jsOrStr username "unknown"

/-- The `react` handler with the in-memory backend active: guard on falsy
`messageId`/`emoji`, resolve `by`, find the message (silent return when
absent), toggle, and broadcast `reactionUpdate`. -/
def reactMem (store : List Msg) (username : Option String)
    (messageId emoji : Option String) : List Msg × List OutEvent :=
  if jsTruthy messageId = false ∨ jsTruthy emoji = false then (store, [])
  else
    let mid := jsStr messageId
    let b := socketBy username
    match store.find? (fun m => m.mid == mid) with
    | none => (store, [])
    | some m =>
        let rs := toggleReaction m.reactions (jsStr emoji) b
        (updateFirstMsg (fun x => { x with reactions := rs }) mid store,
          [.reactionUpdate mid rs])

/-- The `react` handler with the durable backend active:
`Message.findById` (silent return when `null`), the same toggle, `msg.save()`
writing the updated document back, and the `reactionUpdate` broadcast. -/
def reactDb (dbStore : List Msg) (username : Option String)
    (messageId emoji : Option String) : List Msg × List OutEvent :=
  if jsTruthy messageId = false ∨ jsTruthy emoji = false then (dbStore, [])
  else
    let mid := jsStr messageId
    let b := socketBy username
    match dbStore.find? (fun m => m.mid == mid) with
    | none => (dbStore, [])
    | some m =>
        let rs := toggleReaction m.reactions (jsStr emoji) b
        (updateFirstMsg (fun x => { x with reactions := rs }) mid dbStore,
          [.reactionUpdate mid rs])

/-- The `requestHistory` handler with the durable backend active: bail out
when the socket never joined, otherwise run the query; the surrounding
try/catch answers `loadMessages []` when the query throws. -/
def requestHistoryDb (dbStore : List Msg) (rowsResult : Except Unit (List UserRec))
    (username : Option String) (peer : Option String) : List OutEvent :=
  if jsTruthy username = false then []
  else
    match queryMessagesDb dbStore rowsResult (jsStr username) peer with
    | .ok msgs => [.loadMessages msgs]
    | .error _ => [.loadMessages []]

/-! ## Presence registry -/

/-- The two global session tables: `socketUsers : socketId -> username` and
`userSockets : username -> socketId`. -/
structure Presence where
  socketUsers : List (String × String)
  userSockets : List (String × String)
deriving DecidableEq, Repr

/-- The presence effect of the `join` handler: `socketUsers[socket.id] =
username; userSockets[username] = socket.id` (falsy username returns
early). -/
def joinBind (st : Presence) (socketId username : String) : Presence :=
  if username = "" then st
  else
    { socketUsers := setVal st.socketUsers socketId username,
      userSockets := setVal st.userSockets username socketId }

/-- The presence effect of the `disconnect` handler: look up the socket's
username; when truthy, delete the `socketUsers` entry and delete the
`userSockets` entry only if it still points at this socket. -/
def disconnectUnbind (st : Presence) (socketId : String) : Presence :=
  match getVal st.socketUsers socketId with
  | none => st
  | some name =>
      if name = "" then st
      else
        { socketUsers := delVal st.socketUsers socketId,
          userSockets :=
            if getVal st.userSockets name = some socketId
            then delVal st.userSockets name else st.userSockets }

/-! ## Association-list lemmas -/

theorem getVal_append {α : Type} (m₁ m₂ : List (String × α)) (k : String) :
    getVal (m₁ ++ m₂) k = (getVal m₁ k).or (getVal m₂ k) := by
  induction m₁ with
  | nil => simp [getVal]
  | cons p m ih =>
    by_cases h : p.1 = k <;> simp [getVal, h, ih]

theorem getVal_map_overwrite_self {α : Type} (m : List (String × α)) (k : String)
    (v : α) (h : m.any (fun p => p.1 = k)) :
    getVal (m.map (fun p => if p.1 = k then (k, v) else p)) k = some v := by
  induction m with
  | nil => simp at h
  | cons p m ih =>
    by_cases hp : p.1 = k
    · simp [getVal, hp]
    · have hm : m.any (fun p => decide (p.1 = k)) := by
        simpa [List.any_cons, decide_eq_false hp] using h
      simp [getVal, hp, ih hm]

theorem getVal_map_overwrite_ne {α : Type} (m : List (String × α)) (k : String)
    (v : α) (n : String) (hne : n ≠ k) :
    getVal (m.map (fun p => if p.1 = k then (k, v) else p)) n = getVal m n := by
  induction m with
  | nil => simp [getVal]
  | cons p m ih =>
    by_cases hp : p.1 = k
    · have hkn : ¬ ((k : String) = n) := fun hkn => hne hkn.symm
      have hpn : ¬ (p.1 = n) := by rw [hp]; exact hkn
      simp [getVal, hp, hkn, hpn, ih]
    · by_cases h2 : p.1 = n <;> simp [getVal, hp, h2, hne, ih]

theorem getVal_not_found {α : Type} (m : List (String × α)) (k : String)
    (h : ¬ m.any (fun p => p.1 = k)) : getVal m k = none := by
  induction m with
  | nil => simp [getVal]
  | cons p m ih =>
    simp only [List.any_cons, Bool.or_eq_true, not_or] at h
    have hp : ¬ (p.1 = k) := by simpa using h.1
    simp [getVal, hp, ih h.2]

theorem getVal_setVal_self {α : Type} (m : List (String × α)) (k : String) (v : α) :
    getVal (setVal m k v) k = some v := by
  unfold setVal
  by_cases h : m.any (fun p => p.1 = k)
  · simp only [h, if_true]
    exact getVal_map_overwrite_self m k v h
  · rw [if_neg h, getVal_append, getVal_not_found m k h]
    simp [getVal]

theorem getVal_setVal_ne {α : Type} (m : List (String × α)) (k : String) (v : α)
    (n : String) (hne : n ≠ k) :
    getVal (setVal m k v) n = getVal m n := by
  unfold setVal
  by_cases h : m.any (fun p => p.1 = k)
  · simp only [h, if_true]
    exact getVal_map_overwrite_ne m k v n hne
  · rw [if_neg h, getVal_append]
    have hkn : ¬ (k = n) := fun hkn => hne hkn.symm
    have : getVal [(k, v)] n = none := by simp [getVal, hkn]
    cases hm : getVal m n <;> simp [this, hm]

/-! ## Sorting and slicing lemmas -/

theorem insertByTime_length (m : Msg) (l : List Msg) :
    (insertByTime m l).length = l.length + 1 := by
  induction l with
  | nil => rfl
  | cons y ys ih =>
    by_cases h : y.createdAt < m.createdAt <;> simp [insertByTime, h, ih]

theorem sortByTime_length (l : List Msg) : (sortByTime l).length = l.length := by
  induction l with
  | nil => rfl
  | cons x xs ih => simp [sortByTime, insertByTime_length, ih]

theorem insertByTime_perm (m : Msg) (l : List Msg) :
    (insertByTime m l).Perm (m :: l) := by
  induction l with
  | nil => exact List.Perm.refl _
  | cons y ys ih =>
    by_cases h : y.createdAt < m.createdAt
    · simp only [insertByTime, h, if_true]
      exact (List.Perm.cons y ih).trans (List.Perm.swap m y ys)
    · simp [insertByTime, h]

theorem sortByTime_perm (l : List Msg) : (sortByTime l).Perm l := by
  induction l with
  | nil => exact List.Perm.refl _
  | cons x xs ih =>
    exact (insertByTime_perm x (sortByTime xs)).trans (List.Perm.cons x ih)

theorem mem_sortByTime (m : Msg) (l : List Msg) : m ∈ sortByTime l ↔ m ∈ l :=
  (sortByTime_perm l).mem_iff

theorem insertByTime_append_max (x m : Msg) (s : List Msg)
    (hx : x.createdAt ≤ m.createdAt) :
    insertByTime x (s ++ [m]) = insertByTime x s ++ [m] := by
  induction s with
  | nil => simp [insertByTime, Nat.not_lt.mpr hx]
  | cons y ys ih =>
    by_cases h : y.createdAt < x.createdAt <;> simp [insertByTime, h, ih]

theorem sortByTime_append_max (l : List Msg) (m : Msg)
    (h : ∀ x ∈ l, x.createdAt ≤ m.createdAt) :
    sortByTime (l ++ [m]) = sortByTime l ++ [m] := by
  induction l with
  | nil => rfl
  | cons x xs ih =>
    have hx : x.createdAt ≤ m.createdAt := h x (by simp)
    have hxs : ∀ y ∈ xs, y.createdAt ≤ m.createdAt := fun y hy => h y (by simp [hy])
    simp only [List.cons_append, sortByTime]
    rw [List.append_eq, ih hxs]
    exact insertByTime_append_max x m (sortByTime xs) hx

theorem lastN_of_length_le {α : Type} (n : Nat) (l : List α) (h : l.length ≤ n) :
    lastN n l = l := by
  unfold lastN
  rw [Nat.sub_eq_zero_of_le h, List.drop_zero]

theorem mem_lastN_append_last {α : Type} (n : Nat) (l : List α) (m : α)
    (hn : 1 ≤ n) : m ∈ lastN n (l ++ [m]) := by
  unfold lastN
  have hlen : (l ++ [m]).length - n ≤ l.length := by
    simp only [List.length_append, List.length_singleton]
    omega
  rw [List.drop_append_of_le_length hlen]
  exact List.mem_append_right _ (List.mem_singleton_self m)

theorem mem_dedupGo (a : String) (seen l : List String) :
    a ∈ dedupGo seen l ↔ a ∈ l ∧ a ∉ seen := by
  induction l generalizing seen with
  | nil => simp [dedupGo]
  | cons x xs ih =>
    by_cases h : x ∈ seen
    · rw [dedupGo, if_pos h, ih]
      by_cases hax : a = x
      · subst hax; simp [h]
      · simp [hax]
    · rw [dedupGo, if_neg h]
      by_cases hax : a = x
      · subst hax; simp [h]
      · simp [List.mem_cons, hax, ih]

theorem mem_dedupFirst (a : String) (l : List String) :
    a ∈ dedupFirst l ↔ a ∈ l := by
  rw [dedupFirst, mem_dedupGo]
  simp

/-! ## Reaction toggle lemmas -/

theorem reactionMatches_iff (e b : String) (r : Reaction) :
    reactionMatches e b r = true ↔ r = ⟨e, b⟩ := by
  cases r with
  | mk re rb => simp [reactionMatches, Reaction.mk.injEq]

theorem any_reactionMatches (e b : String) (rs : List Reaction) :
    rs.any (reactionMatches e b) = true ↔ (⟨e, b⟩ : Reaction) ∈ rs := by
  rw [List.any_eq_true]
  constructor
  · rintro ⟨r, hr, hm⟩
    rwa [(reactionMatches_iff e b r).mp hm] at hr
  · intro h
    exact ⟨_, h, (reactionMatches_iff e b _).mpr rfl⟩

theorem removeFirstReaction_sublist (e b : String) (rs : List Reaction) :
    (removeFirstReaction e b rs).Sublist rs := by
  induction rs with
  | nil => exact List.Sublist.refl _
  | cons r rs ih =>
    by_cases h : reactionMatches e b r = true
    · rw [removeFirstReaction, if_pos h]
      exact List.sublist_cons_self r rs
    · rw [removeFirstReaction, if_neg h]
      exact ih.cons₂ r

theorem perm_cons_removeFirstReaction (e b : String) (rs : List Reaction)
    (h : (⟨e, b⟩ : Reaction) ∈ rs) :
    rs.Perm (⟨e, b⟩ :: removeFirstReaction e b rs) := by
  induction rs with
  | nil => simp at h
  | cons r rs ih =>
    by_cases hm : reactionMatches e b r = true
    · have hr : r = ⟨e, b⟩ := (reactionMatches_iff e b r).mp hm
      subst hr
      rw [removeFirstReaction, if_pos hm]
    · rw [removeFirstReaction, if_neg hm]
      have hr : (⟨e, b⟩ : Reaction) ∈ rs := by
        rcases List.mem_cons.mp h with heq | h2
        · exact absurd ((reactionMatches_iff e b r).mpr heq.symm) hm
        · exact h2
      exact (List.Perm.cons r (ih hr)).trans (List.Perm.swap ⟨e, b⟩ r _)

theorem removeFirstReaction_append_not_mem (e b : String) (rs : List Reaction)
    (h : (⟨e, b⟩ : Reaction) ∉ rs) :
    removeFirstReaction e b (rs ++ [⟨e, b⟩]) = rs := by
  induction rs with
  | nil =>
    rw [List.nil_append, removeFirstReaction,
      if_pos ((reactionMatches_iff e b _).mpr rfl)]
  | cons r rs ih =>
    have hr : ¬ reactionMatches e b r = true := fun hm =>
      h (List.mem_cons.mpr (Or.inl ((reactionMatches_iff e b r).mp hm).symm))
    rw [List.cons_append, removeFirstReaction, if_neg hr,
      ih (fun h2 => h (List.mem_cons_of_mem r h2))]

/-! ## Claim C5: reaction toggling -/

/-- **C5 counterexample.**  The claim says a double toggle returns the
reaction list to its prior state.  On `[👍 alice, ❤ bob]`, toggling
`(👍, alice)` twice yields `[❤ bob, 👍 alice]`: the same reactions, but the
toggled one has moved to the end, so the list (which is what
`reactionUpdate` broadcasts) is not its prior state. -/
theorem toggleReaction_double_reorders :
    toggleReaction
        (toggleReaction [⟨"👍", "alice"⟩, ⟨"❤", "bob"⟩] "👍" "alice")
        "👍" "alice"
      = [⟨"❤", "bob"⟩, ⟨"👍", "alice"⟩]
    ∧ toggleReaction
        (toggleReaction [⟨"👍", "alice"⟩, ⟨"❤", "bob"⟩] "👍" "alice")
        "👍" "alice"
      ≠ [⟨"👍", "alice"⟩, ⟨"❤", "bob"⟩] := by decide

/-- **C5 (amended).**  For every reaction list with at most one reaction per
`(emoji, by)` pair (`Nodup`, since a reaction is exactly such a pair), a
double toggle returns the list to a permutation of its prior state — exactly
the prior list when the pair was absent — and a toggle preserves the
at-most-one-per-pair invariant. -/
theorem toggleReaction_involutive (rs : List Reaction) (e b : String)
    (hnd : rs.Nodup) :
    (toggleReaction (toggleReaction rs e b) e b).Perm rs
    ∧ ((⟨e, b⟩ : Reaction) ∉ rs →
        toggleReaction (toggleReaction rs e b) e b = rs)
    ∧ (toggleReaction rs e b).Nodup := by
  by_cases hmem : (⟨e, b⟩ : Reaction) ∈ rs
  · have hany : rs.any (reactionMatches e b) = true :=
      (any_reactionMatches e b rs).mpr hmem
    have ht1 : toggleReaction rs e b = removeFirstReaction e b rs := by
      rw [toggleReaction, if_pos hany]
    have hperm := perm_cons_removeFirstReaction e b rs hmem
    have hnd2 : ((⟨e, b⟩ : Reaction) :: removeFirstReaction e b rs).Nodup :=
      (hperm.nodup_iff).mp hnd
    have hnotin : (⟨e, b⟩ : Reaction) ∉ removeFirstReaction e b rs :=
      (List.nodup_cons.mp hnd2).1
    have ht2 : toggleReaction (removeFirstReaction e b rs) e b
        = removeFirstReaction e b rs ++ [⟨e, b⟩] := by
      rw [toggleReaction,
        if_neg (fun hc => hnotin ((any_reactionMatches e b _).mp hc))]
    refine ⟨?_, fun h => absurd hmem h, ?_⟩
    · rw [ht1, ht2]
      exact (List.perm_append_singleton _ _).trans hperm.symm
    · rw [ht1]
      exact (List.nodup_cons.mp hnd2).2
  · have hany : ¬ rs.any (reactionMatches e b) = true := fun hc =>
      hmem ((any_reactionMatches e b rs).mp hc)
    have ht1 : toggleReaction rs e b = rs ++ [⟨e, b⟩] := by
      rw [toggleReaction, if_neg hany]
    have hmem2 : (⟨e, b⟩ : Reaction) ∈ rs ++ [⟨e, b⟩] :=
      List.mem_append_right _ (List.mem_singleton_self _)
    have ht2 : toggleReaction (rs ++ [⟨e, b⟩]) e b = rs := by
      rw [toggleReaction, if_pos ((any_reactionMatches e b _).mpr hmem2)]
      exact removeFirstReaction_append_not_mem e b rs hmem
    refine ⟨?_, fun _ => by rw [ht1, ht2], ?_⟩
    · rw [ht1, ht2]
    · rw [ht1]
      refine List.Nodup.append hnd (List.nodup_singleton _) ?_
      intro a ha hb
      rw [List.mem_singleton.mp hb] at ha
      exact hmem ha

/-- Witness for `toggleReaction_involutive` at the counterexample's list. -/
theorem toggleReaction_involutive_witness :
    (toggleReaction
        (toggleReaction [⟨"👍", "alice"⟩, ⟨"❤", "bob"⟩] "👍" "alice")
        "👍" "alice").Perm [⟨"👍", "alice"⟩, ⟨"❤", "bob"⟩]
    ∧ ((⟨"👍", "alice"⟩ : Reaction) ∉ [⟨"👍", "alice"⟩, ⟨"❤", "bob"⟩] →
        toggleReaction
            (toggleReaction [⟨"👍", "alice"⟩, ⟨"❤", "bob"⟩] "👍" "alice")
            "👍" "alice"
          = [⟨"👍", "alice"⟩, ⟨"❤", "bob"⟩])
    ∧ (toggleReaction [⟨"👍", "alice"⟩, ⟨"❤", "bob"⟩] "👍" "alice").Nodup :=
  toggleReaction_involutive [⟨"👍", "alice"⟩, ⟨"❤", "bob"⟩] "👍" "alice"
    (by decide)

/-! ## Claim C8: status idempotence -/

/-- Read the field a status patch writes. -/
def statusGet : StatusField → Msg → Bool
  | .delivered, m => m.delivered
  | .seen, m => m.seen

theorem applyStatusPatch_mid (f : StatusField) (m : Msg) :
    (applyStatusPatch f m).mid = m.mid := by
  cases f <;> rfl

theorem applyStatusPatch_idem (f : StatusField) (m : Msg) :
    applyStatusPatch f (applyStatusPatch f m) = applyStatusPatch f m := by
  cases f <;> rfl

theorem applyStatusPatch_noop (f : StatusField) (m : Msg)
    (h : statusGet f m = true) : applyStatusPatch f m = m := by
  cases f <;> cases m <;> simp_all [applyStatusPatch, statusGet]

theorem updateFirstMsg_idem (f : Msg → Msg) (mid : String) (l : List Msg)
    (hmid : ∀ m, (f m).mid = m.mid) (hff : ∀ m, f (f m) = f m) :
    updateFirstMsg f mid (updateFirstMsg f mid l) = updateFirstMsg f mid l := by
  induction l with
  | nil => rfl
  | cons m ms ih =>
    by_cases h : m.mid = mid
    · rw [updateFirstMsg, if_pos h, updateFirstMsg,
        if_pos (by rw [hmid m]; exact h), hff]
    · rw [updateFirstMsg, if_neg h, updateFirstMsg, if_neg h, ih]

theorem updateFirstMsg_noop (f : Msg → Msg) (mid : String) (l : List Msg)
    (h : ∀ m ∈ l, m.mid = mid → f m = m) :
    updateFirstMsg f mid l = l := by
  induction l with
  | nil => rfl
  | cons m ms ih =>
    by_cases hm : m.mid = mid
    · rw [updateFirstMsg, if_pos hm, h m (List.mem_cons_self m ms) hm]
    · rw [updateFirstMsg, if_neg hm,
        ih (fun x hx => h x (List.mem_cons_of_mem m hx))]

/-- **C8.**  `setStatus` is idempotent in both backends, and when the field
is already `true` on every message with the given id, one call is already a
no-op. -/
theorem setStatus_idempotent (store : List Msg) (messageId : String)
    (f : StatusField) :
    updateMessageStatusMem (updateMessageStatusMem store messageId f) messageId f
      = updateMessageStatusMem store messageId f
    ∧ updateMessageStatusDb (updateMessageStatusDb store messageId f) messageId f
      = updateMessageStatusDb store messageId f
    ∧ (store.all (fun m => !(m.mid == messageId) || statusGet f m) = true →
        updateMessageStatusMem store messageId f = store
        ∧ updateMessageStatusDb store messageId f = store) := by
  have hidem := updateFirstMsg_idem (applyStatusPatch f) messageId store
    (applyStatusPatch_mid f) (applyStatusPatch_idem f)
  have hnoop : store.all (fun m => !(m.mid == messageId) || statusGet f m) = true →
      updateFirstMsg (applyStatusPatch f) messageId store = store := by
    intro hall
    refine updateFirstMsg_noop _ _ _ (fun m hm hmid => ?_)
    have := List.all_eq_true.mp hall m hm
    rw [hmid] at this
    simp only [BEq.refl, Bool.not_true, Bool.false_or] at this
    exact applyStatusPatch_noop f m this
  exact ⟨hidem, hidem, fun hall => ⟨hnoop hall, hnoop hall⟩⟩

/-- Witness for `setStatus_idempotent` on a store holding one delivered
message. -/
theorem setStatus_idempotent_witness :
    updateMessageStatusMem
        (updateMessageStatusMem [⟨"m1", "a", "b", "hi", none, true, false, [], 0⟩]
          "m1" .delivered) "m1" .delivered
      = updateMessageStatusMem [⟨"m1", "a", "b", "hi", none, true, false, [], 0⟩]
          "m1" .delivered
    ∧ updateMessageStatusDb
        (updateMessageStatusDb [⟨"m1", "a", "b", "hi", none, true, false, [], 0⟩]
          "m1" .delivered) "m1" .delivered
      = updateMessageStatusDb [⟨"m1", "a", "b", "hi", none, true, false, [], 0⟩]
          "m1" .delivered
    ∧ (updateMessageStatusMem [⟨"m1", "a", "b", "hi", none, true, false, [], 0⟩]
            "m1" .delivered
          = [⟨"m1", "a", "b", "hi", none, true, false, [], 0⟩]
        ∧ updateMessageStatusDb [⟨"m1", "a", "b", "hi", none, true, false, [], 0⟩]
            "m1" .delivered
          = [⟨"m1", "a", "b", "hi", none, true, false, [], 0⟩]) :=
  ⟨(setStatus_idempotent [⟨"m1", "a", "b", "hi", none, true, false, [], 0⟩]
      "m1" .delivered).1,
   (setStatus_idempotent [⟨"m1", "a", "b", "hi", none, true, false, [], 0⟩]
      "m1" .delivered).2.1,
   (setStatus_idempotent [⟨"m1", "a", "b", "hi", none, true, false, [], 0⟩]
      "m1" .delivered).2.2 (by decide)⟩

/-! ## Claim C1: history query routing -/

/-- The routing rule as the specification words it (spec §4.1), stated
propositionally for comparison with the code's `routePred`: when `peer` is
absent or `"all"`, messages with `to == "all"` or `to == usernameLocal` or
`from == usernameLocal`; otherwise `to == "all"`, or
(`from == usernameLocal` and `to == peer`), or (`from == peer` and
`to == usernameLocal`). -/
def specRoutingRule (usernameLocal : String) (peer : Option String)
    (m : Msg) : Prop :=
  match peer with
  | none => m.to_ = "all" ∨ m.to_ = usernameLocal ∨ m.from_ = usernameLocal
  | some p =>
      if p = "all" then
        m.to_ = "all" ∨ m.to_ = usernameLocal ∨ m.from_ = usernameLocal
      else
        m.to_ = "all" ∨ (m.from_ = usernameLocal ∧ m.to_ = p) ∨
          (m.from_ = p ∧ m.to_ = usernameLocal)

theorem routePred_iff_spec (usernameLocal : String) (peer : Option String)
    (m : Msg) (hp : peer ≠ some "") :
    routePred usernameLocal peer m = true ↔
      specRoutingRule usernameLocal peer m := by
  cases peer with
  | none => simp [routePred, specRoutingRule, or_assoc]
  | some p =>
    by_cases h : p = "all"
    · simp [routePred, specRoutingRule, h, or_assoc]
    · have h0 : ¬ (p = "") := fun he => hp (by rw [he])
      simp [routePred, specRoutingRule, h, h0, or_assoc]

theorem enrichWithMap_map_msg (am : List (String × Option String))
    (msgs : List Msg) :
    (enrichWithMap am msgs).map EnrichedMsg.msg = msgs := by
  induction msgs with
  | nil => rfl
  | cons m ms ih => simpa [enrichWithMap] using ih

theorem queryMessagesMem_eq (users : List UserRec) (store : List Msg)
    (usernameLocal : String) (peer : Option String) :
    queryMessagesMem users store usernameLocal peer
      = enrichWithMap
          (findUsersByNamesMem users
            (sendersOf (queryMessagesMemRaw store usernameLocal peer)))
          (queryMessagesMemRaw store usernameLocal peer) := rfl

theorem exists_enrich_msg (am : List (String × Option String))
    (msgs : List Msg) (m : Msg) :
    (∃ e ∈ enrichWithMap am msgs, e.msg = m) ↔ m ∈ msgs := by
  constructor
  · rintro ⟨e, he, rfl⟩
    rcases List.mem_map.mp he with ⟨x, hx, rfl⟩
    exact hx
  · intro h
    exact ⟨⟨m, jsAvatarOrNull (getVal am m.from_)⟩,
      List.mem_map_of_mem _ h, rfl⟩

/-- **C1.**  With at most 500 matches (the cap is claim C3's subject), the
history query of both backends returns exactly the stored messages selected
by the spec's routing rule, in ascending creation order; in particular a
broadcast message (`to = "all"`) is in every peer-scoped view. -/
theorem history_query_routing (users : List UserRec) (store : List Msg)
    (usernameLocal : String) (peer : Option String) (m : Msg)
    (hp : peer ≠ some "")
    (hlen : (store.filter (routePred usernameLocal peer)).length ≤ 500) :
    (queryMessagesMem users store usernameLocal peer).map EnrichedMsg.msg
        = sortByTime (store.filter (routePred usernameLocal peer))
    ∧ queryMessagesDbRaw store usernameLocal peer
        = sortByTime (store.filter (routePred usernameLocal peer))
    ∧ ((∃ e ∈ queryMessagesMem users store usernameLocal peer, e.msg = m)
        ↔ (m ∈ store ∧ specRoutingRule usernameLocal peer m)) := by
  have hraw : queryMessagesMemRaw store usernameLocal peer
      = sortByTime (store.filter (routePred usernameLocal peer)) := by
    unfold queryMessagesMemRaw
    exact lastN_of_length_le _ _ (by rw [sortByTime_length]; exact hlen)
  have hdb : queryMessagesDbRaw store usernameLocal peer
      = sortByTime (store.filter (routePred usernameLocal peer)) := by
    unfold queryMessagesDbRaw
    exact List.take_of_length_le (by rw [sortByTime_length]; exact hlen)
  refine ⟨?_, hdb, ?_⟩
  · rw [queryMessagesMem_eq, enrichWithMap_map_msg, hraw]
  · rw [queryMessagesMem_eq, exists_enrich_msg, hraw, mem_sortByTime,
      List.mem_filter, routePred_iff_spec usernameLocal peer m hp]

/-- Spec §8's routing example as witness: store
`[{to:"all"}, {a→b}, {b→a}, {a→c}]`, query `history("a","b")`. -/
def c1Store : List Msg :=
  [⟨"m0", "x", "all", "t0", none, false, false, [], 0⟩,
   ⟨"m1", "a", "b", "t1", none, false, false, [], 1⟩,
   ⟨"m2", "b", "a", "t2", none, false, false, [], 2⟩,
   ⟨"m3", "a", "c", "t3", none, false, false, [], 3⟩]

/-- Witness for `history_query_routing` at spec §8's example, with `m` the
broadcast message. -/
theorem history_query_routing_witness :
    ((queryMessagesMem [] c1Store "a" (some "b")).map EnrichedMsg.msg
        = sortByTime (c1Store.filter (routePred "a" (some "b")))
    ∧ queryMessagesDbRaw c1Store "a" (some "b")
        = sortByTime (c1Store.filter (routePred "a" (some "b")))
    ∧ ((∃ e ∈ queryMessagesMem [] c1Store "a" (some "b"),
          e.msg = ⟨"m0", "x", "all", "t0", none, false, false, [], 0⟩)
        ↔ ((⟨"m0", "x", "all", "t0", none, false, false, [], 0⟩ : Msg) ∈ c1Store
            ∧ specRoutingRule "a" (some "b")
                ⟨"m0", "x", "all", "t0", none, false, false, [], 0⟩))) :=
  history_query_routing [] c1Store "a" (some "b")
    ⟨"m0", "x", "all", "t0", none, false, false, [], 0⟩
    (by decide) (by decide)

/-! ## Claim C4: presence single-binding -/

/-- **C4.**  Rebinding a username to a new handle makes `resolve` return the
new handle, and a later disconnect of the stale handle leaves the
username-to-handle table untouched: `resolve` still returns the new
handle. -/
theorem presence_stale_unbind (st : Presence) (h1 h2 u : String)
    (hu : u ≠ "") (hne : h1 ≠ h2) :
    getVal (joinBind (joinBind st h1 u) h2 u).userSockets u = some h2
    ∧ (disconnectUnbind (joinBind (joinBind st h1 u) h2 u) h1).userSockets
        = (joinBind (joinBind st h1 u) h2 u).userSockets
    ∧ getVal (disconnectUnbind (joinBind (joinBind st h1 u) h2 u) h1).userSockets u
        = some h2 := by
  have hj1 : joinBind st h1 u
      = { socketUsers := setVal st.socketUsers h1 u,
          userSockets := setVal st.userSockets u h1 } := by
    rw [joinBind, if_neg hu]
  have hj2 : joinBind (joinBind st h1 u) h2 u
      = { socketUsers := setVal (setVal st.socketUsers h1 u) h2 u,
          userSockets := setVal (setVal st.userSockets u h1) u h2 } := by
    rw [joinBind, if_neg hu, hj1]
  have hres : getVal (joinBind (joinBind st h1 u) h2 u).userSockets u
      = some h2 := by
    rw [hj2]
    exact getVal_setVal_self _ _ _
  have hsock : getVal (joinBind (joinBind st h1 u) h2 u).socketUsers h1
      = some u := by
    rw [hj2]
    have := getVal_setVal_ne (setVal st.socketUsers h1 u) h2 u h1 hne
    rw [this]
    exact getVal_setVal_self _ _ _
  have hd : (disconnectUnbind (joinBind (joinBind st h1 u) h2 u) h1).userSockets
      = (joinBind (joinBind st h1 u) h2 u).userSockets := by
    rw [disconnectUnbind]
    rw [hsock]
    simp only [if_neg hu]
    have hns : ¬ ((some h2 : Option String) = some h1) := by
      simp only [Option.some.injEq]
      exact fun hc => hne hc.symm
    rw [hres, if_neg hns]
  exact ⟨hres, hd, by rw [hd]; exact hres⟩

/-- Witness for `presence_stale_unbind`: alice on handles `H1` then `H2`,
then `H1` disconnects. -/
theorem presence_stale_unbind_witness :
    getVal (joinBind (joinBind ⟨[], []⟩ "H1" "alice") "H2" "alice").userSockets
        "alice" = some "H2"
    ∧ (disconnectUnbind (joinBind (joinBind ⟨[], []⟩ "H1" "alice") "H2" "alice")
          "H1").userSockets
        = (joinBind (joinBind ⟨[], []⟩ "H1" "alice") "H2" "alice").userSockets
    ∧ getVal (disconnectUnbind
          (joinBind (joinBind ⟨[], []⟩ "H1" "alice") "H2" "alice")
          "H1").userSockets "alice"
        = some "H2" :=
  presence_stale_unbind ⟨[], []⟩ "H1" "H2" "alice" (by decide) (by decide)

/-! ## Claim C6: reactions on unknown ids -/

/-- **C6.**  When no stored message carries the requested id, the `react`
handler of either backend leaves the store unchanged and emits nothing. -/
theorem react_unknown_id_noop (store : List Msg) (username : Option String)
    (messageId emoji : Option String)
    (h : ∀ m ∈ store, m.mid ≠ jsStr messageId) :
    reactMem store username messageId emoji = (store, [])
    ∧ reactDb store username messageId emoji = (store, []) := by
  have hfind : store.find? (fun m => m.mid == jsStr messageId) = none := by
    rw [List.find?_eq_none]
    intro m hm
    simpa using h m hm
  constructor
  · rw [reactMem]
    by_cases hg : jsTruthy messageId = false ∨ jsTruthy emoji = false
    · rw [if_pos hg]
    · rw [if_neg hg]
      simp [hfind]
  · rw [reactDb]
    by_cases hg : jsTruthy messageId = false ∨ jsTruthy emoji = false
    · rw [if_pos hg]
    · rw [if_neg hg]
      simp [hfind]

/-- Witness for `react_unknown_id_noop`: a one-message store and an id that
matches nothing. -/
theorem react_unknown_id_noop_witness :
    reactMem [⟨"m1", "a", "all", "hi", none, false, false, [], 0⟩]
        (some "bob") (some "nope") (some "👍")
      = ([⟨"m1", "a", "all", "hi", none, false, false, [], 0⟩], [])
    ∧ reactDb [⟨"m1", "a", "all", "hi", none, false, false, [], 0⟩]
        (some "bob") (some "nope") (some "👍")
      = ([⟨"m1", "a", "all", "hi", none, false, false, [], 0⟩], []) :=
  react_unknown_id_noop [⟨"m1", "a", "all", "hi", none, false, false, [], 0⟩]
    (some "bob") (some "nope") (some "👍") (by decide)

/-! ## Claim C7: chatMessage validation -/

/-- **C7 counterexample.**  The event `{from: "", to: "bob", text: "hi"}`
has non-empty text, yet the handler rejects it (the guard also requires a
truthy `from`): the store is unchanged and nothing is emitted, refuting
"a message with at least one of text non-empty or attachment non-null is
accepted". -/
theorem chatMessage_missing_from_rejected :
    ("hi" : String) ≠ ""
    ∧ chatMessageMem [] [] "S1" [] 0 "f1" ⟨"", some "bob", some "hi", none⟩
        = ([], []) := by
  constructor
  · decide
  · rfl

/-- **C7 (amended).**  An event with falsy text and no attachment is rejected
before any store call — store unchanged, no fan-out; conversely an event with
a *non-empty `from`* and at least one of text non-empty or attachment
non-null is accepted: it is appended to the store and at least one `message`
event is emitted. -/
theorem chatMessage_validation (users : List UserRec)
    (userSockets : List (String × String)) (senderSocket : String)
    (store : List Msg) (t : Nat) (fresh : String) (d : ChatData) :
    (jsTruthy d.text = false ∧ d.attachment = none →
      chatMessageMem users userSockets senderSocket store t fresh d
        = (store, []))
    ∧ (d.from_ ≠ "" → (jsTruthy d.text = true ∨ d.attachment ≠ none) →
      (chatMessageMem users userSockets senderSocket store t fresh d).1
        = store ++ [⟨fresh, d.from_, jsOrStr d.to_ "all", jsStr d.text,
                     d.attachment, false, false, [], t⟩]
      ∧ (chatMessageMem users userSockets senderSocket store t fresh d).2
          ≠ []) := by
  constructor
  · intro hrej
    rw [chatMessageMem, if_pos (Or.inr hrej)]
  · intro hfrom hcontent
    have hacc : ¬ (d.from_ = ""
        ∨ (jsTruthy d.text = false ∧ d.attachment = none)) := by
      rintro (h | ⟨h1, h2⟩)
      · exact hfrom h
      · rcases hcontent with ht | ha
        · rw [ht] at h1; exact absurd h1 (by decide)
        · exact ha h2
    rw [chatMessageMem, if_neg hacc]
    by_cases hall : jsOrStr d.to_ "all" = "all"
    · exact ⟨by simp [hall], by simp [hall]⟩
    · refine ⟨by simp [hall], ?_⟩
      cases hg : getVal userSockets (jsOrStr d.to_ "all") <;> simp [hall, hg]

/-- Witness for `chatMessage_validation`: both a rejected empty event and an
accepted broadcast text message. -/
theorem chatMessage_validation_witness :
    ((jsTruthy (some "") = false ∧ (none : Option Attachment) = none →
      chatMessageMem [] [] "S1" [] 0 "f1" ⟨"alice", none, some "", none⟩
        = ([], []))
    ∧ ("alice" : String) ≠ ""
    ∧ (chatMessageMem [] [] "S1" [] 0 "f1" ⟨"alice", none, some "hi", none⟩).1
        = [] ++ [⟨"f1", "alice", "all", "hi", none, false, false, [], 0⟩]
    ∧ (chatMessageMem [] [] "S1" [] 0 "f1" ⟨"alice", none, some "hi", none⟩).2
        ≠ []) := by
  refine ⟨(chatMessage_validation [] [] "S1" [] 0 "f1"
    ⟨"alice", none, some "", none⟩).1, by decide, ?_, ?_⟩
  · exact ((chatMessage_validation [] [] "S1" [] 0 "f1"
      ⟨"alice", none, some "hi", none⟩).2 (by decide) (Or.inl (by decide))).1
  · exact ((chatMessage_validation [] [] "S1" [] 0 "f1"
      ⟨"alice", none, some "hi", none⟩).2 (by decide) (Or.inl (by decide))).2

/-! ## Claim C10: anonymous reactors -/

theorem updateFirstMsg_found (g : List Reaction → List Reaction) (mid : String)
    (l : List Msg) (m : Msg)
    (hf : l.find? (fun x => x.mid == mid) = some m) :
    updateFirstMsg (fun x => { x with reactions := g m.reactions }) mid l
      = updateFirstMsg (fun x => { x with reactions := g x.reactions }) mid l := by
  induction l with
  | nil => rfl
  | cons y ys ih =>
    by_cases hy : y.mid = mid
    · have hm : m = y := by
        rw [List.find?_cons_of_pos _ (by simpa using hy)] at hf
        exact (Option.some.injEq _ _ ▸ hf :).symm
      subst hm
      rw [updateFirstMsg, if_pos hy, updateFirstMsg, if_pos hy]
    · have hf2 : ys.find? (fun x => x.mid == mid) = some m := by
        rwa [List.find?_cons_of_neg _ (by simpa using hy)] at hf
      rw [updateFirstMsg, if_neg hy, updateFirstMsg, if_neg hy, ih hf2]

/-- **C10.**  A `react` event on a connection that never joined behaves
exactly as if the username were the fixed string `"unknown"`: when the
message exists the toggle is applied with `by = "unknown"` and a
`reactionUpdate` is emitted, rather than the event being rejected. -/
theorem react_anonymous_unknown (store : List Msg)
    (messageId emoji : Option String)
    (hm : jsTruthy messageId = true) (he : jsTruthy emoji = true)
    (hex : ∃ m ∈ store, m.mid = jsStr messageId) :
    reactMem store none messageId emoji
        = reactMem store (some "unknown") messageId emoji
    ∧ (reactMem store none messageId emoji).2 ≠ []
    ∧ (reactMem store none messageId emoji).1
        = updateFirstMsg
            (fun x => { x with
              reactions := toggleReaction x.reactions (jsStr emoji) "unknown" })
            (jsStr messageId) store := by
  have hb : socketBy (some "unknown") = socketBy none := by decide
  have hguard : ¬ (jsTruthy messageId = false ∨ jsTruthy emoji = false) := by
    rw [hm, he]
    simp
  obtain ⟨m0, hm0, hid0⟩ := hex
  have hfind : ∃ mf, store.find? (fun m => m.mid == jsStr messageId)
      = some mf := by
    cases hf : store.find? (fun m => m.mid == jsStr messageId) with
    | some mf => exact ⟨mf, rfl⟩
    | none =>
      exact absurd (by simpa using hid0)
        (by simpa using List.find?_eq_none.mp hf m0 hm0)
  obtain ⟨mf, hfd⟩ := hfind
  refine ⟨?_, ?_, ?_⟩
  · rw [reactMem, reactMem, hb]
  · rw [reactMem, if_neg hguard]
    simp [hfd]
  · rw [reactMem, if_neg hguard]
    simp only [hfd, socketBy, jsOrStr]
    exact updateFirstMsg_found
      (fun rs => toggleReaction rs (jsStr emoji) "unknown")
      (jsStr messageId) store mf hfd

/-- Witness for `react_anonymous_unknown`: an anonymous socket reacting 👍
to an existing message. -/
theorem react_anonymous_unknown_witness :
    (reactMem [⟨"m1", "a", "all", "hi", none, false, false, [], 0⟩]
        none (some "m1") (some "👍")
      = reactMem [⟨"m1", "a", "all", "hi", none, false, false, [], 0⟩]
          (some "unknown") (some "m1") (some "👍"))
    ∧ (reactMem [⟨"m1", "a", "all", "hi", none, false, false, [], 0⟩]
        none (some "m1") (some "👍")).2 ≠ []
    ∧ (reactMem [⟨"m1", "a", "all", "hi", none, false, false, [], 0⟩]
        none (some "m1") (some "👍")).1
      = updateFirstMsg
          (fun x => { x with
            reactions := toggleReaction x.reactions (jsStr (some "👍"))
              "unknown" })
          (jsStr (some "m1"))
          [⟨"m1", "a", "all", "hi", none, false, false, [], 0⟩] :=
  react_anonymous_unknown [⟨"m1", "a", "all", "hi", none, false, false, [], 0⟩]
    (some "m1") (some "👍") (by decide) (by decide) (by decide)

/-! ## Claim C3: the 500-message cap -/

/-- A broadcast message whose id and creation time are derived from `i`. -/
def broadcastAt (i : Nat) : Msg :=
  ⟨s!"m{i}", "u", "all", "hello", none, false, false, [], i⟩

/-- 501 matching broadcast messages with creation times `0..500`. -/
def overflowStore : List Msg := (List.range 501).map broadcastAt

set_option maxRecDepth 40000 in
/-- **C3 evaluation.**  On a store with 501 matches, the durable branch
(`sort({createdAt:1}).limit(500)`) returns the *oldest* 500 messages
(creation times `0..499`), while the volatile branch
(`sort` then `slice(-500)`) returns the most recent 500 (`1..500`) in
ascending order — the two backends disagree, and the durable one does not
return the most recent 500. -/
theorem durable_query_returns_oldest_500 :
    (queryMessagesDbRaw overflowStore "u" none).map Msg.createdAt
      = List.range 500
    ∧ (queryMessagesMemRaw overflowStore "u" none).map Msg.createdAt
      = (List.range 500).map (fun i => i + 1)
    ∧ queryMessagesDbRaw overflowStore "u" none
        ≠ queryMessagesMemRaw overflowStore "u" none := by
  decide

/-! ## Claim C9: avatar-enrichment failure -/

def c9Store : List Msg :=
  [⟨"m1", "alice", "all", "hello", none, false, false, [], 3⟩]

/-- **C9 counterexample.**  One matching message is stored, but when the
avatar lookup fails the `requestHistory` handler answers `loadMessages []`:
the message sequence is *not* returned with null avatars — the error
propagates out of `queryMessages` (which has no internal try/catch) and the
handler's catch substitutes an empty list. -/
theorem requestHistory_avatar_error_empty :
    queryMessagesDbRaw c9Store "alice" none ≠ []
    ∧ requestHistoryDb c9Store (.error ()) (some "alice") none
        = [OutEvent.loadMessages []] := by
  decide

theorem findUsersByNamesDb_ok (rows : List UserRec) (names : List String) :
    findUsersByNamesDb (.ok rows) names
      = .ok (if names.isEmpty then []
             else rows.foldl (fun map r => setVal map r.username r.avatar) []) := by
  rw [findUsersByNamesDb]
  by_cases h : names.isEmpty <;> simp [h]

theorem getVal_rows_fold_none (rows : List UserRec)
    (acc : List (String × Option String)) (n : String)
    (h : ∀ r ∈ rows, r.username ≠ n) :
    getVal (rows.foldl (fun map r => setVal map r.username r.avatar) acc) n
      = getVal acc n := by
  induction rows generalizing acc with
  | nil => rfl
  | cons r rows ih =>
    rw [List.foldl_cons,
      ih _ (fun x hx => h x (List.mem_cons_of_mem r hx)),
      getVal_setVal_ne _ _ _ _
        (fun hc => h r (List.mem_cons_self r rows) hc.symm)]

/-- **C9 (amended).**  An avatar lookup that *finds no row* for a sender
degrades that record to `avatar: null` while the full message sequence is
still returned; but an avatar lookup *error* fails the whole query (there
being senders to look up), and `requestHistory` then answers an empty list
rather than the messages with null avatars. -/
theorem avatar_lookup_degradation (dbStore : List Msg) (rows : List UserRec)
    (usernameLocal : String) (peer : Option String)
    (msgs : List EnrichedMsg) (e : EnrichedMsg)
    (hu : usernameLocal ≠ "")
    (hok : queryMessagesDb dbStore (.ok rows) usernameLocal peer = .ok msgs)
    (he : e ∈ msgs)
    (hrow : ∀ r ∈ rows, r.username ≠ e.msg.from_) :
    requestHistoryDb dbStore (.ok rows) (some usernameLocal) peer
        = [OutEvent.loadMessages msgs]
    ∧ msgs.map EnrichedMsg.msg = queryMessagesDbRaw dbStore usernameLocal peer
    ∧ e.avatar = none
    ∧ (sendersOf (queryMessagesDbRaw dbStore usernameLocal peer) ≠ [] →
        queryMessagesDb dbStore (.error ()) usernameLocal peer = .error ()
        ∧ requestHistoryDb dbStore (.error ()) (some usernameLocal) peer
            = [OutEvent.loadMessages []]) := by
  have hty : jsTruthy (some usernameLocal) = true := by
    simp [jsTruthy, hu]
  have hjs : jsStr (some usernameLocal) = usernameLocal := by
    simp [jsStr, jsOrStr, hu]
  have hmsgs : msgs = enrichWithMap
      (if (sendersOf (queryMessagesDbRaw dbStore usernameLocal peer)).isEmpty
       then []
       else rows.foldl (fun map r => setVal map r.username r.avatar) [])
      (queryMessagesDbRaw dbStore usernameLocal peer) := by
    rw [queryMessagesDb, findUsersByNamesDb_ok] at hok
    simpa using hok.symm
  refine ⟨?_, ?_, ?_, ?_⟩
  · rw [requestHistoryDb, if_neg (by rw [hty]; exact fun hc => absurd hc (by decide)),
      hjs, hok]
  · rw [hmsgs, enrichWithMap_map_msg]
  · rw [hmsgs] at he
    rcases List.mem_map.mp he with ⟨m, hm, hme⟩
    have hav : getVal
        (if (sendersOf (queryMessagesDbRaw dbStore usernameLocal peer)).isEmpty
         then []
         else rows.foldl (fun map r => setVal map r.username r.avatar) [])
        m.from_ = none := by
      have hfr : m.from_ = e.msg.from_ := by rw [← hme]
      by_cases hse : (sendersOf (queryMessagesDbRaw dbStore usernameLocal peer)).isEmpty
      · rw [if_pos hse]; rfl
      · rw [if_neg hse, hfr, getVal_rows_fold_none rows [] _ hrow]; rfl
    rw [← hme]
    show jsAvatarOrNull (getVal _ m.from_) = none
    rw [hav]
    rfl
  · intro hsend
    have hq : queryMessagesDb dbStore (.error ()) usernameLocal peer
        = .error () := by
      rw [queryMessagesDb, findUsersByNamesDb,
        if_neg (fun hc => hsend (List.isEmpty_iff.mp hc))]
    refine ⟨hq, ?_⟩
    rw [requestHistoryDb, if_neg (by rw [hty]; exact fun hc => absurd hc (by decide)),
      hjs, hq]

/-- Witness for `avatar_lookup_degradation` at the counterexample's store
with no user rows. -/
theorem avatar_lookup_degradation_witness :
    (requestHistoryDb c9Store (.ok []) (some "alice") none
        = [OutEvent.loadMessages
            [⟨⟨"m1", "alice", "all", "hello", none, false, false, [], 3⟩, none⟩]]
    ∧ ([⟨⟨"m1", "alice", "all", "hello", none, false, false, [], 3⟩,
          none⟩] : List EnrichedMsg).map EnrichedMsg.msg
        = queryMessagesDbRaw c9Store "alice" none
    ∧ (⟨⟨"m1", "alice", "all", "hello", none, false, false, [], 3⟩,
          none⟩ : EnrichedMsg).avatar = none
    ∧ (sendersOf (queryMessagesDbRaw c9Store "alice" none) ≠ [] →
        queryMessagesDb c9Store (.error ()) "alice" none = .error ()
        ∧ requestHistoryDb c9Store (.error ()) (some "alice") none
            = [OutEvent.loadMessages []])) :=
  avatar_lookup_degradation c9Store [] "alice" none
    [⟨⟨"m1", "alice", "all", "hello", none, false, false, [], 3⟩, none⟩]
    ⟨⟨"m1", "alice", "all", "hello", none, false, false, [], 3⟩, none⟩
    (by decide) (by rfl) (by decide) (by decide)

/-! ## Claim C2: post then history, with avatar enrichment -/

/-- The URL carried by the most recent `upsertAvatar` call for `name`
(`none` when there was none) — the specification's reference value for the
enrichment result. -/
def lastUpsertAvatar (calls : List (String × String)) (name : String) :
    Option String :=
  (calls.reverse.find? (fun c => c.1 == name)).map (fun c => c.2)

theorem upsert_map_find_self (users : List UserRec) (k url : String)
    (h : users.any (fun u => u.username == k) = true) :
    (users.map (fun u =>
        if u.username == k then (⟨k, some url⟩ : UserRec) else u)).find?
        (fun u => u.username == k)
      = some ⟨k, some url⟩ := by
  induction users with
  | nil => simp at h
  | cons u us ih =>
    by_cases hu : (u.username == k) = true
    · rw [List.map_cons, if_pos hu]
      exact @List.find?_cons_of_pos UserRec (fun u => u.username == k)
        ⟨k, some url⟩ _ (by simp)
    · rw [List.map_cons, if_neg hu,
        @List.find?_cons_of_neg UserRec (fun u => u.username == k) u _ hu]
      refine ih ?_
      have hb : u.username ≠ k := by simpa using hu
      simpa [List.any_cons, hb] using h

theorem upsert_map_find_ne (users : List UserRec) (k url n : String)
    (hkn : k ≠ n) :
    (users.map (fun u =>
        if u.username == k then (⟨k, some url⟩ : UserRec) else u)).find?
        (fun u => u.username == n)
      = users.find? (fun u => u.username == n) := by
  induction users with
  | nil => rfl
  | cons u us ih =>
    by_cases hu : (u.username == k) = true
    · have huk : u.username = k := by simpa using hu
      have hun : ¬ ((u.username == n) = true) := by simp [huk, hkn]
      rw [List.map_cons, if_pos hu,
        @List.find?_cons_of_neg UserRec (fun u => u.username == n)
          ⟨k, some url⟩ _ (by simp [hkn]),
        @List.find?_cons_of_neg UserRec (fun u => u.username == n) u us hun, ih]
    · rw [List.map_cons, if_neg hu]
      by_cases hun : (u.username == n) = true
      · rw [@List.find?_cons_of_pos UserRec (fun u => u.username == n) u _ hun,
          @List.find?_cons_of_pos UserRec (fun u => u.username == n) u us hun]
      · rw [@List.find?_cons_of_neg UserRec (fun u => u.username == n) u _ hun,
          @List.find?_cons_of_neg UserRec (fun u => u.username == n) u us hun, ih]

theorem upsert_find_self (users : List UserRec) (k url : String) (hk : k ≠ "") :
    (upsertUserAvatarMem users k url).find? (fun u => u.username == k)
      = some ⟨k, some url⟩ := by
  rw [upsertUserAvatarMem, if_neg hk]
  by_cases h : users.any (fun u => u.username == k)
  · rw [if_pos h]
    exact upsert_map_find_self users k url h
  · rw [if_neg h, List.find?_append]
    have hnone : users.find? (fun u => u.username == k) = none :=
      List.find?_eq_none.mpr
        (fun u hu hc => h (List.any_eq_true.mpr ⟨u, hu, hc⟩))
    rw [hnone]
    simp [List.find?]

theorem upsert_find_ne (users : List UserRec) (k url n : String) (hkn : k ≠ n) :
    (upsertUserAvatarMem users k url).find? (fun u => u.username == n)
      = users.find? (fun u => u.username == n) := by
  rw [upsertUserAvatarMem]
  by_cases hk : k = ""
  · rw [if_pos hk]
  · rw [if_neg hk]
    by_cases h : users.any (fun u => u.username == k)
    · rw [if_pos h]
      exact upsert_map_find_ne users k url n hkn
    · rw [if_neg h, List.find?_append]
      have hone : List.find? (fun u => u.username == n)
          ([⟨k, some url⟩] : List UserRec) = none := by
        have hb : (k == n) = false := by simp [hkn]
        simp [List.find?, hb]
      rw [hone]
      cases hres : users.find? (fun (u : UserRec) => u.username == n) <;> rfl

theorem applyAvatarCalls_find (calls : List (String × String))
    (users : List UserRec) (n : String) (hn : n ≠ "") :
    (applyAvatarCalls users calls).find? (fun u => u.username == n)
      = match lastUpsertAvatar calls n with
        | some url => some ⟨n, some url⟩
        | none => users.find? (fun u => u.username == n) := by
  induction calls generalizing users with
  | nil => rfl
  | cons c cs ih =>
    have hstep : applyAvatarCalls users (c :: cs)
        = applyAvatarCalls (upsertUserAvatarMem users c.1 c.2) cs := rfl
    rw [hstep, ih]
    have hrev : lastUpsertAvatar (c :: cs) n
        = match lastUpsertAvatar cs n with
          | some url => some url
          | none => if (c.1 == n) = true then some c.2 else none := by
      rw [lastUpsertAvatar, lastUpsertAvatar, List.reverse_cons,
        List.find?_append]
      cases hf : (cs.reverse).find? (fun x => x.1 == n) with
      | some x => simp [hf]
      | none =>
        by_cases hc : (c.1 == n) = true
        · have hcn : c.1 = n := by simpa using hc
          simp [hf, hcn,
            @List.find?_cons_of_pos (String × String) (fun x => x.1 == n) c [] hc]
        · have hcn : ¬ (c.1 = n) := by simpa using hc
          simp [hf, hcn,
            @List.find?_cons_of_neg (String × String) (fun x => x.1 == n) c [] hc]
    rw [hrev]
    cases hl : lastUpsertAvatar cs n with
    | some url => rfl
    | none =>
      by_cases hc : (c.1 == n) = true
      · have hcn : c.1 = n := by simpa using hc
        rw [if_pos hc, ← hcn]
        exact upsert_find_self users c.1 c.2 (by rw [hcn]; exact hn)
      · rw [if_neg hc]
        exact upsert_find_ne users c.1 c.2 n (fun he => hc (by simp [he]))

theorem getVal_avatar_fold (users : List UserRec) (names : List String)
    (acc : List (String × Option String)) (n : String) :
    getVal (names.foldl (fun map nm =>
        match users.find? (fun u => u.username == nm) with
        | some u => setVal map nm u.avatar
        | none => map) acc) n
      = match users.find? (fun u => u.username == n) with
        | some u => if n ∈ names then some u.avatar else getVal acc n
        | none => getVal acc n := by
  induction names generalizing acc with
  | nil =>
    cases h : users.find? (fun (u : UserRec) => u.username == n) <;> simp [h]
  | cons nm names ih =>
    rw [List.foldl_cons, ih]
    by_cases hnm : n = nm
    · subst hnm
      cases h : users.find? (fun (u : UserRec) => u.username == n) with
      | some u =>
        simp only [h, List.mem_cons, true_or, if_true]
        by_cases hmem : n ∈ names
        · rw [if_pos hmem]
        · rw [if_neg hmem]
          exact getVal_setVal_self acc n u.avatar
      | none => simp [h]
    · cases h : users.find? (fun (u : UserRec) => u.username == n) with
      | some u =>
        simp only [h, List.mem_cons, hnm, false_or]
        by_cases hmem : n ∈ names
        · rw [if_pos hmem, if_pos hmem]
        · rw [if_neg hmem, if_neg hmem]
          cases h2 : users.find? (fun (u : UserRec) => u.username == nm) with
          | some u2 => exact getVal_setVal_ne acc nm u2.avatar n hnm
          | none => rfl
      | none =>
        simp only [h]
        cases h2 : users.find? (fun (u : UserRec) => u.username == nm) with
        | some u2 => exact getVal_setVal_ne acc nm u2.avatar n hnm
        | none => rfl

theorem mem_sendersOf (m : Msg) (msgs : List Msg) (hm : m ∈ msgs)
    (hne : m.from_ ≠ "") : m.from_ ∈ sendersOf msgs := by
  rw [sendersOf, mem_dedupFirst]
  exact List.mem_filter.mpr
    ⟨List.mem_map_of_mem Msg.from_ hm, by simpa using hne⟩

theorem lastUpsertAvatar_url_ne (calls : List (String × String)) (n url : String)
    (hurl : ∀ c ∈ calls, c.2 ≠ "") (h : lastUpsertAvatar calls n = some url) :
    url ≠ "" := by
  rw [lastUpsertAvatar] at h
  rcases Option.map_eq_some'.mp h with ⟨c, hc, hc2⟩
  have hmem : c ∈ calls := List.mem_reverse.mp (List.mem_of_find?_eq_some hc)
  rw [← hc2]
  exact hurl c hmem

theorem chatMessageMem_fst (users : List UserRec)
    (userSockets : List (String × String)) (senderSocket : String)
    (store : List Msg) (t : Nat) (fresh : String) (d : ChatData)
    (hfrom : d.from_ ≠ "")
    (hcontent : jsTruthy d.text = true ∨ d.attachment ≠ none) :
    (chatMessageMem users userSockets senderSocket store t fresh d).1
      = store ++ [⟨fresh, d.from_, jsOrStr d.to_ "all", jsStr d.text,
                   d.attachment, false, false, [], t⟩] := by
  have hacc : ¬ (d.from_ = ""
      ∨ (jsTruthy d.text = false ∧ d.attachment = none)) := by
    rintro (h | ⟨h1, h2⟩)
    · exact hfrom h
    · rcases hcontent with ht | ha
      · rw [ht] at h1; exact absurd h1 (by decide)
      · exact ha h2
  rw [chatMessageMem, if_neg hacc]
  by_cases hall : jsOrStr d.to_ "all" = "all" <;> simp [hall]

theorem mem_queryMessagesMemRaw_append (store : List Msg) (saved : Msg)
    (usernameLocal : String) (peer : Option String)
    (hpred : routePred usernameLocal peer saved = true)
    (htime : ∀ m ∈ store, m.createdAt ≤ saved.createdAt) :
    saved ∈ queryMessagesMemRaw (store ++ [saved]) usernameLocal peer := by
  rw [queryMessagesMemRaw, List.filter_append]
  have hone : List.filter (routePred usernameLocal peer) [saved] = [saved] := by
    simp [hpred]
  rw [hone,
    sortByTime_append_max _ _ (fun x hx => htime x (List.mem_filter.mp hx).1)]
  exact mem_lastN_append_last 500 _ _ (by omega)

theorem enrich_mem_avatar (am : List (String × Option String))
    (msgs : List Msg) (m : Msg) (hm : m ∈ msgs) :
    ∃ e ∈ enrichWithMap am msgs,
      e.msg = m ∧ e.avatar = jsAvatarOrNull (getVal am m.from_) :=
  ⟨⟨m, jsAvatarOrNull (getVal am m.from_)⟩, List.mem_map_of_mem _ hm, rfl, rfl⟩

set_option maxRecDepth 8000 in
/-- **C2.**  Posting a valid message (non-empty `from`, text or attachment
present) with the in-memory backend and then querying history for the
conversation `(to, from)` returns that exact message — `from`, `to`, `text`,
`attachment` as posted, `delivered` and `seen` false, `reactions` empty —
enriched with the URL of the sender's most recent `upsertAvatar` call, or
`null` if there was none.  The hypotheses: existing timestamps do not exceed
the new message's (`htime`, clock monotonicity), and every avatar upload
stores a non-empty URL (`hurl`, as `/avatar` always does). -/
theorem post_then_history (calls : List (String × String))
    (userSockets : List (String × String)) (senderSocket : String)
    (store : List Msg) (t : Nat) (fresh : String) (d : ChatData)
    (hfrom : d.from_ ≠ "")
    (hcontent : jsTruthy d.text = true ∨ d.attachment ≠ none)
    (htime : ∀ m ∈ store, m.createdAt ≤ t)
    (hurl : ∀ c ∈ calls, c.2 ≠ "") :
    ∃ e ∈ queryMessagesMem (applyAvatarCalls [] calls)
        (chatMessageMem (applyAvatarCalls [] calls) userSockets senderSocket
          store t fresh d).1
        (jsOrStr d.to_ "all") (some d.from_),
      e.msg = ⟨fresh, d.from_, jsOrStr d.to_ "all", jsStr d.text, d.attachment,
               false, false, [], t⟩
      ∧ e.avatar = lastUpsertAvatar calls d.from_ := by
  have hstore := chatMessageMem_fst (applyAvatarCalls [] calls) userSockets
    senderSocket store t fresh d hfrom hcontent
  rw [hstore, queryMessagesMem_eq]
  have hpred : routePred (jsOrStr d.to_ "all") (some d.from_)
      ⟨fresh, d.from_, jsOrStr d.to_ "all", jsStr d.text, d.attachment,
       false, false, [], t⟩ = true := by
    by_cases hfa : d.from_ = "all"
    · simp [routePred, hfa]
    · simp [routePred, hfrom, hfa]
  have hmemraw := mem_queryMessagesMemRaw_append store
    ⟨fresh, d.from_, jsOrStr d.to_ "all", jsStr d.text, d.attachment,
     false, false, [], t⟩
    (jsOrStr d.to_ "all") (some d.from_) hpred htime
  obtain ⟨e, hemem, hemsg, heav⟩ := enrich_mem_avatar
    (findUsersByNamesMem (applyAvatarCalls [] calls)
      (sendersOf (queryMessagesMemRaw (store ++ [⟨fresh, d.from_,
        jsOrStr d.to_ "all", jsStr d.text, d.attachment, false, false, [], t⟩])
        (jsOrStr d.to_ "all") (some d.from_))))
    _ _ hmemraw
  refine ⟨e, hemem, hemsg, ?_⟩
  rw [heav]
  have hsend := mem_sendersOf _ _ hmemraw hfrom
  have hx : (⟨fresh, d.from_, jsOrStr d.to_ "all", jsStr d.text, d.attachment,
      false, false, [], t⟩ : Msg).from_ = d.from_ := rfl
  rw [hx]
  rw [findUsersByNamesMem, getVal_avatar_fold,
    applyAvatarCalls_find calls [] d.from_ hfrom]
  cases hl : lastUpsertAvatar calls d.from_ with
  | some url =>
    have hne : url ≠ "" := lastUpsertAvatar_url_ne calls d.from_ url hurl hl
    simp [hsend, jsAvatarOrNull, hne]
  | none => simp [jsAvatarOrNull, getVal]

/-- Witness for `post_then_history`: alice (avatar `/uploads/a.png`) sends
"hi" to bob into an empty store. -/
theorem post_then_history_witness :
    ∃ e ∈ queryMessagesMem
        (applyAvatarCalls [] [("alice", "/uploads/a.png")])
        (chatMessageMem (applyAvatarCalls [] [("alice", "/uploads/a.png")])
          [] "S1" [] 7 "m9" ⟨"alice", some "bob", some "hi", none⟩).1
        (jsOrStr (some "bob") "all") (some "alice"),
      e.msg = ⟨"m9", "alice", jsOrStr (some "bob") "all", jsStr (some "hi"),
               none, false, false, [], 7⟩
      ∧ e.avatar = lastUpsertAvatar [("alice", "/uploads/a.png")] "alice" :=
  post_then_history [("alice", "/uploads/a.png")] [] "S1" [] 7 "m9"
    ⟨"alice", some "bob", some "hi", none⟩
    (by decide) (Or.inl (by decide)) (by decide) (by decide)

end Chat
